import Mathlib

/-!
Shallow embedding of the core of `pyvolcans_func.py` (PyVOLCANS), together
with theorems settling the frozen claims about its specification.

Conventions of the embedding:
* Python floats are modelled as rationals (ℚ); numpy arrays as lists.
* The volcano catalogue (`VOLCANO_NAMES`, a three-column dataframe) is a list
  of `VolcanoRecord` (columns 0 = name, 1 = country, 2 = smithsonian id);
  a row index is a `Nat` position in that list.
* Python functions that may raise `PyvolcansError` return `Except`;
  the single Python exception class is one inductive whose constructors
  carry the data that the source interpolates into the message string.
* In-place mutation of a caller-supplied dict is modelled by returning the
  final state of that dict alongside the function result.
-/

namespace PyVolcans

/-- One row of the `VOLCANO_NAMES` catalogue: column 0 is the volcano name,
column 1 the country, column 2 the numeric Smithsonian identifier. -/
structure VolcanoRecord where
  name : String
  country : String
  smithsonian_id : Int
deriving DecidableEq

instance : Inhabited VolcanoRecord := ⟨⟨"", "", 0⟩⟩

/-- The single Python exception class `PyvolcansError`; each constructor is
one of the raise sites of the source, carrying the data interpolated into
the corresponding message string. -/
inductive PyvolcansError where
  /-- Raised by `get_volcano_idx_from_number` when no row has the given id
  ("Volcano number does not exist. ..."). -/
  | volcanoNumberNotFound
  /-- Raised by `match_name` when no row has the given name; carries the
  fuzzy suggestions shown in the message
  ("{volcano_name} not found! Did you mean: ..."). -/
  | notFound (volcano_name : String) (suggestions : List VolcanoRecord)
  /-- Raised by `match_name` when several rows share the given name
  ("Volcano name {volcano_name} is not unique. Please provide smithsonian id
  instead of name. ..."); carries the fuzzy suggestions of the message. -/
  | notUnique (volcano_name : String) (suggestions : List VolcanoRecord)
  /-- Raised by `set_weights_from_args` when the explicit weights do not sum
  to 1 ("Sum of weights ({sum_of_weights}) is different from 1!"); carries
  the computed sum that appears in the message. -/
  | weightSum (sum_of_weights : ℚ)
  /-- Raised by `get_many_analogy_percentiles` when the a priori volcanoes
  argument is not a list ("A priori volcanoes should be a list!"). -/
  | aprioriNotAList
deriving DecidableEq

/-! ### Weight Normalizer (`set_weights_from_args`) -/

/-- The caller-supplied `args_dict`: a mapping from the five fixed criteria
to an optional weight (`none` = not specified by the caller). -/
structure WeightArgs where
  tectonic_setting : Option ℚ
  geochemistry : Option ℚ
  morphology : Option ℚ
  eruption_size : Option ℚ
  eruption_style : Option ℚ
deriving DecidableEq

/-- The values of the mapping, in the fixed key order of the source's
`WEIGHTS` dictionary. -/
def WeightArgs.values (a : WeightArgs) : List (Option ℚ) :=
  [a.tectonic_setting, a.geochemistry, a.morphology, a.eruption_size, a.eruption_style]

/-- Python's `all(value is None for value in args_dict.values())`. -/
def WeightArgs.allNone (a : WeightArgs) : Bool :=
  a.values.all Option.isNone

/-- Python's `dict.fromkeys(args_dict.keys(), 0.2)`. -/
def uniformWeightArgs : WeightArgs :=
  ⟨some 0.2, some 0.2, some 0.2, some 0.2, some 0.2⟩

/-- The state of `args_dict` after the source's filling loop: every `None`
value has been overwritten with 0, explicit values are untouched. -/
def WeightArgs.fillZeros (a : WeightArgs) : WeightArgs :=
  ⟨some (a.tectonic_setting.getD 0), some (a.geochemistry.getD 0),
   some (a.morphology.getD 0), some (a.eruption_size.getD 0),
   some (a.eruption_style.getD 0)⟩

/-- The source's `sum_of_weights`: the sum of the explicitly supplied
values (values defaulted to 0 contribute nothing). -/
def WeightArgs.explicitSum (a : WeightArgs) : ℚ :=
  (a.values.filterMap id).sum

/-- Embedding of `set_weights_from_args`.  The Python function mutates the
caller's `args_dict` in its filling loop (`args_dict[key] = 0`), so the
embedding returns the final state of the caller's dict as the first
component and the function result (normal return or raised error) as the
second.  In the all-`None` branch the source rebinds the local name to a
fresh dict and leaves the caller's dict untouched. -/
def set_weights_from_args (args_dict : WeightArgs) :
    WeightArgs × Except PyvolcansError WeightArgs :=
  if args_dict.allNone then
    (args_dict, Except.ok uniformWeightArgs)
  else
    let filled := args_dict.fillZeros
    let sum_of_weights := args_dict.explicitSum
    if sum_of_weights ≠ 1 then
      (filled, Except.error (PyvolcansError.weightSum sum_of_weights))
    else
      (filled, Except.ok filled)

/-! ### Claims C3, C2, C10 -/

/-- C3: if every value of the five-criterion weight mapping is absent, the
Weight Normalizer returns the uniform mapping assigning 0.2 to each of the
five criteria, and does not raise (the caller's mapping is also untouched
in this branch). -/
theorem C3_all_absent_uniform (args_dict : WeightArgs)
    (h : args_dict.allNone = true) :
    set_weights_from_args args_dict = (args_dict, Except.ok uniformWeightArgs) ∧
      uniformWeightArgs.values = [some 0.2, some 0.2, some 0.2, some 0.2, some 0.2] := by
  constructor
  · simp [set_weights_from_args, h]
  · rfl

/-- Witness for C3 at the all-absent mapping. -/
theorem C3_witness :
    set_weights_from_args ⟨none, none, none, none, none⟩ =
      (⟨none, none, none, none, none⟩, Except.ok uniformWeightArgs) :=
  (C3_all_absent_uniform ⟨none, none, none, none, none⟩ (by decide)).1

/-- C2: if some value of the mapping is explicitly supplied, the Weight
Normalizer replaces every absent value with 0 (each criterion of the filled
mapping holds `getD 0` of the supplied option, so explicit values are
preserved and absent ones become 0); if the sum of the supplied values is
exactly 1 it returns the filled mapping, otherwise it raises
`PyvolcansError.weightSum` carrying the computed sum that the source
interpolates into the message "Sum of weights (...) is different from 1!". -/
theorem C2_partial_weights (args_dict : WeightArgs)
    (h : args_dict.allNone = false) :
    set_weights_from_args args_dict =
      (args_dict.fillZeros,
        if args_dict.explicitSum = 1 then Except.ok args_dict.fillZeros
        else Except.error (PyvolcansError.weightSum args_dict.explicitSum)) ∧
      args_dict.fillZeros.values =
        [some (args_dict.tectonic_setting.getD 0), some (args_dict.geochemistry.getD 0),
         some (args_dict.morphology.getD 0), some (args_dict.eruption_size.getD 0),
         some (args_dict.eruption_style.getD 0)] := by
  refine ⟨?_, rfl⟩
  by_cases hs : args_dict.explicitSum = 1 <;>
    simp [set_weights_from_args, h, hs]

/-- Witness for C2: the mapping supplying only weights 0.5 and 0.3 sums to
4/5 = 0.8 ≠ 1 and is rejected with the computed sum in the error. -/
theorem C2_witness :
    set_weights_from_args ⟨some 0.5, none, some 0.3, none, none⟩ =
      ((⟨some 0.5, none, some 0.3, none, none⟩ : WeightArgs).fillZeros,
        Except.error (PyvolcansError.weightSum (4 / 5))) := by
  have hsum : (⟨some 0.5, none, some 0.3, none, none⟩ : WeightArgs).explicitSum = 4 / 5 := by
    norm_num [WeightArgs.explicitSum, WeightArgs.values, List.filterMap_cons]
  have h := (C2_partial_weights ⟨some 0.5, none, some 0.3, none, none⟩ (by decide)).1
  rw [h, hsum]
  norm_num

/-- C10 counterexample: the Weight Normalizer is not mutation-free.  On the
mapping that supplies only `tectonic_setting := 1`, the caller's dict after
the call has its absent values overwritten with 0, so it differs from the
dict passed in. -/
theorem C10_counterexample :
    (set_weights_from_args ⟨some 1, none, none, none, none⟩).1 ≠
      ⟨some 1, none, none, none, none⟩ := by
  simp [set_weights_from_args, WeightArgs.allNone, WeightArgs.values,
    WeightArgs.fillZeros, WeightArgs.explicitSum]

/-- C10 amended: the Weight Normalizer is deterministic (in this pure
embedding its result depends only on the input values), but it is not free
of side effects on its argument: after the call the caller's mapping is
unchanged exactly when every value was absent, and otherwise every absent
value in it has been overwritten with 0 (explicit values preserved) — this
mutation happens even when `WeightSumError` is raised. -/
theorem C10_amended_mutation (args_dict : WeightArgs) :
    (set_weights_from_args args_dict).1 =
      (if args_dict.allNone then args_dict else args_dict.fillZeros) := by
  by_cases h : args_dict.allNone <;>
    by_cases hs : args_dict.explicitSum = 1 <;>
      simp [set_weights_from_args, h, hs]

/-! ### Catalogue Index -/

/-- Row indices of the catalogue whose name column equals `volcano_name`:
the source's `VOLCANO_NAMES.loc[VOLCANO_NAMES[0] == volcano_name]`, kept as
the list of positional indices of the matching rows, in row order. -/
def matchingIdxs (cat : List VolcanoRecord) (volcano_name : String) : List Nat :=
  (List.range cat.length).filter (fun i => (cat.getD i default).name == volcano_name)

/-- Model of the external fuzzywuzzy call
`process.extract(volcano_name, VOLCANO_NAMES[0], limit=limit, scorer=fuzz.UQRatio)`:
every catalogue name is scored against the query by the scorer (kept as a
parameter, since `fuzz.UQRatio` lives outside this repository), the matches
are ranked by score in descending order and at most `limit` of them are
kept, as (row index, score) pairs. -/
def processExtract (scorer : String → String → ℚ) (cat : List VolcanoRecord)
    (volcano_name : String) (limit : Nat) : List (Nat × ℚ) :=
  (((List.range cat.length).map
      (fun i => (i, scorer volcano_name (cat.getD i default).name))).insertionSort
    (fun a b => b.2 ≤ a.2)).take limit

/-- Embedding of `fuzzy_matching`: the matched indices from the extraction
are looked up in the catalogue (`VOLCANO_NAMES.iloc[match_idx]`); the source
finally renders this table to a string, the embedding keeps the records. -/
def fuzzy_matching (scorer : String → String → ℚ) (cat : List VolcanoRecord)
    (volcano_name : String) (limit : Nat) : List VolcanoRecord :=
  ((processExtract scorer cat volcano_name limit).map Prod.fst).map
    (fun i => cat.getD i default)

/-- Embedding of `match_name`: keep the rows whose name matches exactly;
zero matches and two or more matches raise `PyvolcansError`, with fuzzy
suggestions computed at the source's default limit 10. -/
def match_name (scorer : String → String → ℚ) (cat : List VolcanoRecord)
    (volcano_name : String) : Except PyvolcansError (List Nat) :=
  let matched_volcanoes := matchingIdxs cat volcano_name
  if matched_volcanoes.length = 0 then
    Except.error (PyvolcansError.notFound volcano_name
      (fuzzy_matching scorer cat volcano_name 10))
  else if matched_volcanoes.length > 1 then
    Except.error (PyvolcansError.notUnique volcano_name
      (fuzzy_matching scorer cat volcano_name 10))
  else
    Except.ok matched_volcanoes

/-- Embedding of `get_volcano_idx_from_name`: the first index of the rows
returned by `match_name` (the source's `matched_volcanoes.index[0]`). -/
def get_volcano_idx_from_name (scorer : String → String → ℚ)
    (cat : List VolcanoRecord) (volcano_name : String) :
    Except PyvolcansError Nat :=
  (match_name scorer cat volcano_name).map (fun matched => matched.headD 0)

/-- Embedding of `get_volcano_idx_from_number`: the rows whose smithsonian
id column equals `volcano_number`; an empty selection raises, otherwise
`.index[0]` is the first matching positional index. -/
def get_volcano_idx_from_number (cat : List VolcanoRecord) (volcano_number : Int) :
    Except PyvolcansError Nat :=
  match (List.range cat.length).filter
      (fun i => (cat.getD i default).smithsonian_id == volcano_number) with
  | [] => Except.error PyvolcansError.volcanoNumberNotFound
  | i :: _ => Except.ok i

/-- Embedding of `get_volcano_name_from_idx`: the source performs the bare
positional read `VOLCANO_NAMES.iloc[volcano_idx, 0]` with no bounds check of
its own (its comments leave the intended out-of-range error message as a
to-do note); an out-of-bounds index therefore surfaces as a raw pandas
IndexError, modelled here as `none`. -/
def get_volcano_name_from_idx (cat : List VolcanoRecord) (volcano_idx : Nat) :
    Option String :=
  (cat[volcano_idx]?).map VolcanoRecord.name

/-! ### Helper lemmas about the catalogue index -/

/-- Every index selected by `matchingIdxs` is in bounds and its row carries
the requested name. -/
lemma matchingIdxs_mem {cat : List VolcanoRecord} {volcano_name : String} {i : Nat}
    (h : i ∈ matchingIdxs cat volcano_name) :
    i < cat.length ∧ (cat.getD i default).name = volcano_name := by
  unfold matchingIdxs at h
  have h1 := List.of_mem_filter h
  have h2 := List.mem_of_mem_filter h
  rw [List.mem_range] at h2
  exact ⟨h2, by simpa using h1⟩

/-- When exactly one row matches, `match_name` returns it. -/
lemma match_name_singleton {cat : List VolcanoRecord} {volcano_name : String}
    {i : Nat} (scorer : String → String → ℚ)
    (h : matchingIdxs cat volcano_name = [i]) :
    match_name scorer cat volcano_name = Except.ok [i] := by
  simp [match_name, h]

/-- The fuzzy suggestion list never exceeds the requested limit. -/
lemma fuzzy_matching_length_le (scorer : String → String → ℚ)
    (cat : List VolcanoRecord) (volcano_name : String) (limit : Nat) :
    (fuzzy_matching scorer cat volcano_name limit).length ≤ limit := by
  simp [fuzzy_matching, processExtract, List.length_take]

/-! ### Claims C7, C8, C9 -/

/-- C7: resolving a name against the catalogue: zero exact matches raise the
not-found error of the `PyvolcansError` family, carrying at most 10 (the
source's default limit) fuzzy-matched suggestions; two or more matches raise
the not-unique error of the same family (whose message recommends supplying
the smithsonian id), with the same fuzzy suggestions attached; exactly one
match makes name resolution return that row's index, which is in bounds and
carries the requested name. -/
theorem C7_match_name (scorer : String → String → ℚ) (cat : List VolcanoRecord)
    (volcano_name : String) :
    ((matchingIdxs cat volcano_name).length = 0 →
      match_name scorer cat volcano_name =
        Except.error (PyvolcansError.notFound volcano_name
          (fuzzy_matching scorer cat volcano_name 10)) ∧
      (fuzzy_matching scorer cat volcano_name 10).length ≤ 10) ∧
    (1 < (matchingIdxs cat volcano_name).length →
      match_name scorer cat volcano_name =
        Except.error (PyvolcansError.notUnique volcano_name
          (fuzzy_matching scorer cat volcano_name 10)) ∧
      (fuzzy_matching scorer cat volcano_name 10).length ≤ 10) ∧
    (∀ i, matchingIdxs cat volcano_name = [i] →
      get_volcano_idx_from_name scorer cat volcano_name = Except.ok i ∧
      i < cat.length ∧ (cat.getD i default).name = volcano_name) := by
  refine ⟨fun h0 => ⟨?_, fuzzy_matching_length_le scorer cat volcano_name 10⟩,
    fun h2 => ⟨?_, fuzzy_matching_length_le scorer cat volcano_name 10⟩,
    fun i hi => ⟨?_, matchingIdxs_mem (hi ▸ List.mem_singleton_self i)⟩⟩
  · simp [match_name, h0]
  · have h0 : (matchingIdxs cat volcano_name).length ≠ 0 := by omega
    simp [match_name, h0, h2]
  · simp [get_volcano_idx_from_name, match_name_singleton scorer hi, Except.map,
      List.headD]

/-- Witness for C7 at a one-volcano catalogue and a name with no match. -/
theorem C7_witness :
    match_name (fun _ _ => 0) [⟨"A", "X", 1⟩] "B" =
      Except.error (PyvolcansError.notFound "B"
        (fuzzy_matching (fun _ _ => 0) [⟨"A", "X", 1⟩] "B" 10)) ∧
    (fuzzy_matching (fun _ _ => 0) [⟨"A", "X", 1⟩] "B" 10).length ≤ 10 :=
  (C7_match_name (fun _ _ => 0) [⟨"A", "X", 1⟩] "B").1 (by decide)

/-- C8: in a catalogue whose smithsonian ids are pairwise distinct (the data
model's uniqueness invariant), a volcano whose name is unique in the
catalogue resolves to the same row index by name and by its smithsonian
id. -/
theorem C8_name_and_number_agree (scorer : String → String → ℚ)
    (cat : List VolcanoRecord) (volcano_name : String) (i : Nat)
    (hids : ∀ j, j < cat.length → ∀ k, k < cat.length →
      (cat.getD j default).smithsonian_id = (cat.getD k default).smithsonian_id →
      j = k)
    (hname : matchingIdxs cat volcano_name = [i]) :
    get_volcano_idx_from_name scorer cat volcano_name = Except.ok i ∧
    get_volcano_idx_from_number cat ((cat.getD i default).smithsonian_id) =
      Except.ok i := by
  have hi : i < cat.length := (matchingIdxs_mem (hname ▸ List.mem_singleton_self i)).1
  constructor
  · simp [get_volcano_idx_from_name, match_name_singleton scorer hname, Except.map,
      List.headD]
  · have hall : ∀ j ∈ (List.range cat.length).filter
        (fun j => (cat.getD j default).smithsonian_id ==
          (cat.getD i default).smithsonian_id), j = i := by
      intro j hj
      have hjlt : j < cat.length := List.mem_range.mp (List.mem_of_mem_filter hj)
      have hjeq : (cat.getD j default).smithsonian_id =
          (cat.getD i default).smithsonian_id := by
        simpa using List.of_mem_filter hj
      exact hids j hjlt i hi hjeq
    have hmem : i ∈ (List.range cat.length).filter
        (fun j => (cat.getD j default).smithsonian_id ==
          (cat.getD i default).smithsonian_id) :=
      List.mem_filter.mpr ⟨List.mem_range.mpr hi, by simp⟩
    cases hfil : (List.range cat.length).filter
        (fun j => (cat.getD j default).smithsonian_id ==
          (cat.getD i default).smithsonian_id) with
    | nil => rw [hfil] at hmem; cases hmem
    | cons j rest =>
      have hji : j = i := hall j (by rw [hfil]; exact List.mem_cons_self j rest)
      unfold get_volcano_idx_from_number
      rw [hfil, hji]

/-- Witness for C8 on a two-volcano catalogue with distinct ids. -/
theorem C8_witness :
    get_volcano_idx_from_name (fun _ _ => 0) [⟨"A", "X", 1⟩, ⟨"B", "Y", 2⟩] "B" =
      Except.ok 1 ∧
    get_volcano_idx_from_number [⟨"A", "X", 1⟩, ⟨"B", "Y", 2⟩]
      (([⟨"A", "X", 1⟩, ⟨"B", "Y", 2⟩] : List VolcanoRecord).getD 1 default).smithsonian_id =
      Except.ok 1 :=
  C8_name_and_number_agree (fun _ _ => 0) [⟨"A", "X", 1⟩, ⟨"B", "Y", 2⟩] "B" 1
    (by decide) (by decide)

/-! ### Weighted Analogy Combiner (`calculate_weighted_analogy_matrix`) -/

/-- The validated weight dictionary consumed by the combiner: after
`set_weights_from_args` every criterion holds a number. -/
structure Weights where
  tectonic_setting : ℚ
  geochemistry : ℚ
  morphology : ℚ
  eruption_size : ℚ
  eruption_style : ℚ

/-- The five pre-computed per-criterion similarity matrices
(`ANALOGY_MATRIX`), all sharing the catalogue's index space; each matrix is
a function of row and column index. -/
structure AnalogyMatrices (n : Nat) where
  tectonic_setting : Fin n → Fin n → ℚ
  geochemistry : Fin n → Fin n → ℚ
  morphology : Fin n → Fin n → ℚ
  eruption_size : Fin n → Fin n → ℚ
  eruption_style : Fin n → Fin n → ℚ

/-- Embedding of `calculate_weighted_analogy_matrix`: numpy's
`weight * matrix` broadcast is pointwise scaling, `+` on arrays is pointwise
addition. -/
def calculate_weighted_analogy_matrix {n : Nat} (weights : Weights)
    (analogies : AnalogyMatrices n) : Fin n → Fin n → ℚ :=
  let weighted_tectonic_analogy :=
    fun i j => weights.tectonic_setting * analogies.tectonic_setting i j
  let weighted_geochemistry_analogy :=
    fun i j => weights.geochemistry * analogies.geochemistry i j
  let weighted_morphology_analogy :=
    fun i j => weights.morphology * analogies.morphology i j
  let weighted_eruption_size_analogy :=
    fun i j => weights.eruption_size * analogies.eruption_size i j
  let weighted_eruption_style_analogy :=
    fun i j => weights.eruption_style * analogies.eruption_style i j
  fun i j =>
    weighted_tectonic_analogy i j + weighted_geochemistry_analogy i j +
      weighted_morphology_analogy i j + weighted_eruption_size_analogy i j +
      weighted_eruption_style_analogy i j

/-- C4: each cell of the combined matrix is the sum over the five criteria
of weight times the corresponding cell; weights (1,0,0,0,0) reproduce the
tectonic-setting matrix exactly, and weights (0.5,0.5,0,0,0) give the
elementwise average of the tectonic and geochemistry matrices. -/
theorem C4_combiner_linear {n : Nat} (weights : Weights)
    (analogies : AnalogyMatrices n) :
    (∀ i j, calculate_weighted_analogy_matrix weights analogies i j =
      weights.tectonic_setting * analogies.tectonic_setting i j +
        weights.geochemistry * analogies.geochemistry i j +
        weights.morphology * analogies.morphology i j +
        weights.eruption_size * analogies.eruption_size i j +
        weights.eruption_style * analogies.eruption_style i j) ∧
    calculate_weighted_analogy_matrix ⟨1, 0, 0, 0, 0⟩ analogies =
      analogies.tectonic_setting ∧
    (∀ i j, calculate_weighted_analogy_matrix ⟨0.5, 0.5, 0, 0, 0⟩ analogies i j =
      (analogies.tectonic_setting i j + analogies.geochemistry i j) / 2) := by
  refine ⟨fun i j => rfl, ?_, fun i j => ?_⟩
  · funext i j
    show (1 : ℚ) * analogies.tectonic_setting i j + 0 * analogies.geochemistry i j +
        0 * analogies.morphology i j + 0 * analogies.eruption_size i j +
        0 * analogies.eruption_style i j = analogies.tectonic_setting i j
    ring
  · show (0.5 : ℚ) * analogies.tectonic_setting i j +
        0.5 * analogies.geochemistry i j + 0 * analogies.morphology i j +
        0 * analogies.eruption_size i j + 0 * analogies.eruption_style i j =
      (analogies.tectonic_setting i j + analogies.geochemistry i j) / 2
    norm_num
    ring

/-! ### Analogue Ranker (`get_analogies`) -/

/-- The duck-typed `my_volcano` argument: a string goes through name
resolution, anything else through smithsonian-number resolution. -/
inductive VolcanoIdentity where
  | byName (volcano_name : String)
  | byNumber (volcano_number : Int)

/-- The `isinstance(my_volcano, str)` dispatch at the head of
`get_analogies`. -/
def resolve_my_volcano (scorer : String → String → ℚ) (cat : List VolcanoRecord) :
    VolcanoIdentity → Except PyvolcansError Nat
  | VolcanoIdentity.byName s => get_volcano_idx_from_name scorer cat s
  | VolcanoIdentity.byNumber k => get_volcano_idx_from_number cat k

/-- Embedding of `my_volcano_analogies.argsort()`: the row's index list
sorted so that analogy values ascend.  numpy's default sort is an unstable
quicksort whose tie order is unspecified; the embedding fixes a
deterministic stable ascending sort (ties keep index order), one of the
orders numpy may produce. -/
def argsortAsc (row : List ℚ) : List Nat :=
  (List.range row.length).insertionSort (fun i j => row.getD i 0 ≤ row.getD j 0)

/-- Embedding of `argsort()[-count:][::-1]`: the last `count` entries of the
ascending argsort (all of them when `count` exceeds the length), highest
analogy first. -/
def topIdx (row : List ℚ) (count : Nat) : List Nat :=
  let s := argsortAsc row
  (s.drop (s.length - count)).reverse

/-- One row of the result table, in the column order of the CSV the source
writes: `smithsonian_id, name, country, analogy_score`. -/
structure ResultRow where
  smithsonian_id : Int
  name : String
  country : String
  analogy_score : ℚ
deriving DecidableEq

/-- Embedding of `get_analogies`: resolve the target, take its matrix row,
keep the `count + 1` indices of highest analogy (the `count = count + 1`
of the source, which includes the target itself), and build the result
table from the catalogue rows at those indices.  Writing the table to
standard output and to a CSV file and opening the browser are collaborator
side effects outside the core; the table itself is returned. -/
def get_analogies (scorer : String → String → ℚ) (cat : List VolcanoRecord)
    (my_volcano : VolcanoIdentity) (weighted_analogy_matrix : List (List ℚ))
    (count : Nat) : Except PyvolcansError (List ResultRow) := do
  let volcano_idx ← resolve_my_volcano scorer cat my_volcano
  let my_volcano_analogies := weighted_analogy_matrix.getD volcano_idx []
  let top_idx := topIdx my_volcano_analogies (count + 1)
  pure (top_idx.map (fun i =>
    ⟨(cat.getD i default).smithsonian_id, (cat.getD i default).name,
     (cat.getD i default).country, my_volcano_analogies.getD i 0⟩))

/-! ### Helper lemmas about resolution and the argsort -/

/-- A successful `match_name` means exactly one row matched. -/
lemma match_name_ok {scorer : String → String → ℚ} {cat : List VolcanoRecord}
    {volcano_name : String} {lst : List Nat}
    (h : match_name scorer cat volcano_name = Except.ok lst) :
    ∃ i, lst = [i] ∧ matchingIdxs cat volcano_name = [i] := by
  simp only [match_name] at h
  by_cases h0 : (matchingIdxs cat volcano_name).length = 0
  · rw [if_pos h0] at h; exact absurd h (by simp)
  · rw [if_neg h0] at h
    by_cases h1 : (matchingIdxs cat volcano_name).length > 1
    · rw [if_pos h1] at h; exact absurd h (by simp)
    · rw [if_neg h1] at h
      have hlen : (matchingIdxs cat volcano_name).length = 1 := by omega
      obtain ⟨i, hi⟩ := List.length_eq_one.mp hlen
      refine ⟨i, ?_, hi⟩
      have heq : matchingIdxs cat volcano_name = lst := by simpa using h
      rw [← heq, hi]

/-- A successful name resolution returns the index of the unique matching
row. -/
lemma get_volcano_idx_from_name_ok {scorer : String → String → ℚ}
    {cat : List VolcanoRecord} {volcano_name : String} {idx : Nat}
    (h : get_volcano_idx_from_name scorer cat volcano_name = Except.ok idx) :
    matchingIdxs cat volcano_name = [idx] := by
  unfold get_volcano_idx_from_name at h
  cases hm : match_name scorer cat volcano_name with
  | error e => rw [hm] at h; exact absurd h (by simp [Except.map])
  | ok lst =>
    obtain ⟨i, hlst, hmatch⟩ := match_name_ok hm
    rw [hm] at h
    have hidx : i = idx := by simpa [Except.map, hlst, List.headD] using h
    rw [hmatch, hidx]

/-- A successfully resolved name index is in catalogue bounds. -/
lemma get_volcano_idx_from_name_lt {scorer : String → String → ℚ}
    {cat : List VolcanoRecord} {volcano_name : String} {idx : Nat}
    (h : get_volcano_idx_from_name scorer cat volcano_name = Except.ok idx) :
    idx < cat.length :=
  (matchingIdxs_mem
    ((get_volcano_idx_from_name_ok h) ▸ List.mem_singleton_self idx)).1

/-- A successfully resolved smithsonian number index is in catalogue
bounds. -/
lemma get_volcano_idx_from_number_lt {cat : List VolcanoRecord}
    {volcano_number : Int} {idx : Nat}
    (h : get_volcano_idx_from_number cat volcano_number = Except.ok idx) :
    idx < cat.length := by
  unfold get_volcano_idx_from_number at h
  cases hfil : (List.range cat.length).filter
      (fun i => (cat.getD i default).smithsonian_id == volcano_number) with
  | nil => rw [hfil] at h; exact absurd h (by simp)
  | cons j rest =>
    rw [hfil] at h
    have hj : j = idx := by simpa using h
    have : j ∈ (List.range cat.length).filter
        (fun i => (cat.getD i default).smithsonian_id == volcano_number) := by
      rw [hfil]; exact List.mem_cons_self j rest
    have := List.mem_range.mp (List.mem_of_mem_filter this)
    omega

/-- A successfully resolved volcano identity is in catalogue bounds. -/
lemma resolve_my_volcano_lt {scorer : String → String → ℚ}
    {cat : List VolcanoRecord} {v : VolcanoIdentity} {idx : Nat}
    (h : resolve_my_volcano scorer cat v = Except.ok idx) :
    idx < cat.length := by
  cases v with
  | byName s => exact get_volcano_idx_from_name_lt h
  | byNumber k => exact get_volcano_idx_from_number_lt h

/-- The argsort is a permutation of the row's index range. -/
lemma argsortAsc_perm (row : List ℚ) :
    List.Perm (argsortAsc row) (List.range row.length) :=
  List.perm_insertionSort _ _

lemma argsortAsc_length (row : List ℚ) :
    (argsortAsc row).length = row.length := by
  simpa using (argsortAsc_perm row).length_eq

/-- Members of the argsort are exactly the in-bounds indices of the row. -/
lemma argsortAsc_mem {row : List ℚ} {i : Nat} :
    i ∈ argsortAsc row ↔ i < row.length := by
  rw [(argsortAsc_perm row).mem_iff, List.mem_range]

/-- The argsort is sorted: analogy values ascend along it. -/
lemma argsortAsc_sorted (row : List ℚ) :
    (argsortAsc row).Pairwise (fun i j => row.getD i 0 ≤ row.getD j 0) := by
  haveI : IsTotal Nat (fun i j => row.getD i 0 ≤ row.getD j 0) :=
    ⟨fun a b => le_total _ _⟩
  haveI : IsTrans Nat (fun i j => row.getD i 0 ≤ row.getD j 0) :=
    ⟨fun a b c hab hbc => le_trans hab hbc⟩
  exact List.sorted_insertionSort _ _

/-- In a pairwise-related list, entries at earlier positions are related to
entries at later positions (read through `getD`). -/
lemma pairwise_getD_of_lt {α : Type} {R : α → α → Prop} (d : α) {l : List α}
    (h : l.Pairwise R) {i j : Nat} (hij : i < j) (hj : j < l.length) :
    R (l.getD i d) (l.getD j d) := by
  have hi : i < l.length := lt_trans hij hj
  rw [List.getD_eq_getElem?_getD, List.getElem?_eq_getElem hi,
    List.getD_eq_getElem?_getD, List.getElem?_eq_getElem hj]
  exact List.pairwise_iff_getElem.mp h i j hi hj hij

/-- Under a strict unique maximum at `idx`, the last element of the
ascending argsort is `idx`. -/
lemma argsortAsc_getLast {row : List ℚ} {idx : Nat} (hidx : idx < row.length)
    (hmax : ∀ j, j < row.length → j ≠ idx → row.getD j 0 < row.getD idx 0)
    (hne : argsortAsc row ≠ []) :
    (argsortAsc row).getLast hne = idx := by
  have hsort := argsortAsc_sorted row
  have hlast_mem : (argsortAsc row).getLast hne ∈ argsortAsc row :=
    List.getLast_mem hne
  have hlast_lt : (argsortAsc row).getLast hne < row.length :=
    argsortAsc_mem.mp hlast_mem
  by_contra hne2
  have hlt : row.getD ((argsortAsc row).getLast hne) 0 < row.getD idx 0 :=
    hmax _ hlast_lt hne2
  have hidx_mem : idx ∈ argsortAsc row := argsortAsc_mem.mpr hidx
  obtain ⟨p, hp, hpeq⟩ := List.mem_iff_getElem.mp hidx_mem
  have hslen : 0 < (argsortAsc row).length := Nat.pos_of_ne_zero
    (fun h0 => hne (List.length_eq_zero.mp h0))
  have hgetD : (argsortAsc row).getD p 0 = idx := by
    rw [List.getD_eq_getElem?_getD, List.getElem?_eq_getElem hp]
    simpa using hpeq
  have hlast_eq : (argsortAsc row).getLast hne =
      (argsortAsc row).getD ((argsortAsc row).length - 1) 0 := by
    rw [List.getLast_eq_getElem, List.getD_eq_getElem?_getD,
      List.getElem?_eq_getElem
        (by omega : (argsortAsc row).length - 1 < (argsortAsc row).length)]
    rfl
  by_cases hp1 : p = (argsortAsc row).length - 1
  · exact hne2 (by rw [hlast_eq, ← hp1]; exact hgetD)
  · have hplt : p < (argsortAsc row).length - 1 := by omega
    have hle : row.getD ((argsortAsc row).getD p 0) 0 ≤
        row.getD ((argsortAsc row).getD ((argsortAsc row).length - 1) 0) 0 :=
      pairwise_getD_of_lt 0 hsort hplt (by omega)
    rw [hgetD, ← hlast_eq] at hle
    exact absurd hlt (not_lt.mpr hle)

/-- When the requested count is within the row length, the top-index slice
has exactly that many entries. -/
lemma topIdx_length {row : List ℚ} {c : Nat} (hc : c ≤ row.length) :
    (topIdx row c).length = c := by
  simp only [topIdx, List.length_reverse, List.length_drop, argsortAsc_length]
  omega

/-- The top-index slice is sorted by descending analogy value. -/
lemma topIdx_sorted (row : List ℚ) (c : Nat) :
    (topIdx row c).Pairwise (fun i j => row.getD j 0 ≤ row.getD i 0) := by
  simp only [topIdx]
  rw [List.pairwise_reverse]
  exact List.Pairwise.sublist (List.drop_sublist _ _) (argsortAsc_sorted row)

/-- The top-index slice has no repeated index. -/
lemma topIdx_nodup (row : List ℚ) (c : Nat) : (topIdx row c).Nodup := by
  simp only [topIdx]
  rw [List.nodup_reverse]
  exact List.Nodup.sublist (List.drop_sublist _ _)
    ((argsortAsc_perm row).nodup_iff.mpr (List.nodup_range _))

/-- Members of the top-index slice are in-bounds row indices. -/
lemma topIdx_mem {row : List ℚ} {c i : Nat} (h : i ∈ topIdx row c) :
    i < row.length := by
  simp only [topIdx, List.mem_reverse] at h
  exact argsortAsc_mem.mp (List.drop_subset _ _ h)

/-- Under a strict unique maximum at `idx`, the first entry of the
top-index slice is `idx`. -/
lemma topIdx_head {row : List ℚ} {idx c : Nat} (hc1 : 1 ≤ c)
    (hc : c ≤ row.length) (hidx : idx < row.length)
    (hmax : ∀ j, j < row.length → j ≠ idx → row.getD j 0 < row.getD idx 0) :
    (topIdx row c).head? = some idx := by
  have hslen : (argsortAsc row).length = row.length := argsortAsc_length row
  have hne : argsortAsc row ≠ [] := by
    intro h0
    rw [h0] at hslen
    simp only [List.length_nil] at hslen
    omega
  simp only [topIdx, List.head?_reverse]
  rw [List.getLast?_eq_getElem?, List.length_drop, List.getElem?_drop]
  have harith : (argsortAsc row).length - c +
      ((argsortAsc row).length - ((argsortAsc row).length - c) - 1) =
      (argsortAsc row).length - 1 := by omega
  rw [harith, ← List.getLast?_eq_getElem?, List.getLast?_eq_getLast _ hne,
    argsortAsc_getLast hidx hmax hne]

/-- C1 counterexample: the claim fails as stated on a concrete combined
analogy matrix.  On the all-zero matrix over a two-volcano catalogue, the
Analogue Ranker invoked on target "A" with requested count 1 returns a
table whose row 0 is volcano "B" (smithsonian id 2) with score 0 — not the
target (id 1) and not score 1.0. -/
theorem C1_counterexample :
    get_analogies (fun _ _ => 0) [⟨"A", "X", 1⟩, ⟨"B", "Y", 2⟩]
        (VolcanoIdentity.byName "A") [[0, 0], [0, 0]] 1 =
      Except.ok [⟨2, "B", "Y", 0⟩, ⟨1, "A", "X", 0⟩] ∧
    (2 : Int) ≠ 1 ∧ (0 : ℚ) ≠ 1 := by
  refine ⟨by rfl, by decide, by decide⟩

/-- C1 amended: provided the combined analogy matrix is index-aligned with
the catalogue (the target's row is as long as the catalogue), the catalogue
has at least N+1 entries and pairwise distinct smithsonian ids, and the
target's self-similarity is 1 and the strict unique maximum of its row,
the Analogue Ranker invoked with requested count N returns a result table
of exactly N+1 rows sorted descending by analogy score, whose row 0 is the
target volcano itself with score 1, and in which no smithsonian id appears
twice. -/
theorem C1_amended_ranking (scorer : String → String → ℚ)
    (cat : List VolcanoRecord) (my_volcano : VolcanoIdentity)
    (M : List (List ℚ)) (count idx : Nat)
    (hres : resolve_my_volcano scorer cat my_volcano = Except.ok idx)
    (hrow : (M.getD idx []).length = cat.length)
    (hcount : count + 1 ≤ cat.length)
    (hdiag : (M.getD idx []).getD idx 0 = 1)
    (hmax : ∀ j, j < cat.length → j ≠ idx → (M.getD idx []).getD j 0 < 1)
    (hids : ∀ j, j < cat.length → ∀ k, k < cat.length →
      (cat.getD j default).smithsonian_id = (cat.getD k default).smithsonian_id →
      j = k) :
    ∃ rows, get_analogies scorer cat my_volcano M count = Except.ok rows ∧
      rows.length = count + 1 ∧
      rows.head? = some ⟨(cat.getD idx default).smithsonian_id,
        (cat.getD idx default).name, (cat.getD idx default).country, 1⟩ ∧
      rows.Pairwise (fun a b => b.analogy_score ≤ a.analogy_score) ∧
      (rows.map ResultRow.smithsonian_id).Nodup := by
  have hidx : idx < cat.length := resolve_my_volcano_lt hres
  have hrowlen : count + 1 ≤ (M.getD idx []).length := by omega
  have hidxrow : idx < (M.getD idx []).length := by omega
  have hmaxrow : ∀ j, j < (M.getD idx []).length → j ≠ idx →
      (M.getD idx []).getD j 0 < (M.getD idx []).getD idx 0 := by
    intro j hj hji
    rw [hdiag]
    exact hmax j (by omega) hji
  refine ⟨(topIdx (M.getD idx []) (count + 1)).map (fun i =>
      ⟨(cat.getD i default).smithsonian_id, (cat.getD i default).name,
       (cat.getD i default).country, (M.getD idx []).getD i 0⟩),
    ?_, ?_, ?_, ?_, ?_⟩
  · simp [get_analogies, hres]
  · rw [List.length_map, topIdx_length hrowlen]
  · rw [List.head?_map, topIdx_head (by omega) hrowlen hidxrow hmaxrow]
    simp only [Option.map_some']
    rw [hdiag]
  · rw [List.pairwise_map]
    exact topIdx_sorted (M.getD idx []) (count + 1)
  · rw [List.map_map]
    refine List.Nodup.map_on ?_ (topIdx_nodup (M.getD idx []) (count + 1))
    intro x hx y hy hxy
    exact hids x (by rw [← hrow]; exact topIdx_mem hx) y
      (by rw [← hrow]; exact topIdx_mem hy) hxy

/-- Witness for the amended C1: target "A" in a two-volcano catalogue with
the identity-like matrix, requested count 1. -/
theorem C1_witness :
    ∃ rows, get_analogies (fun _ _ => 0) [⟨"A", "X", 1⟩, ⟨"B", "Y", 2⟩]
        (VolcanoIdentity.byName "A") [[1, 0], [0, 1]] 1 = Except.ok rows ∧
      rows.length = 2 ∧
      rows.head? = some ⟨1, "A", "X", 1⟩ ∧
      rows.Pairwise (fun a b => b.analogy_score ≤ a.analogy_score) ∧
      (rows.map ResultRow.smithsonian_id).Nodup := by
  have h := C1_amended_ranking (fun _ _ => 0) [⟨"A", "X", 1⟩, ⟨"B", "Y", 2⟩]
    (VolcanoIdentity.byName "A") [[1, 0], [0, 1]] 1 0
    (by rfl) (by rfl) (by decide) (by rfl) (by decide) (by decide)
  simpa using h

/-- C9 (code-bug exhibit): the reverse lookup index → name is a direct array
read; for an in-bounds index it returns the name of the row at that
position, but for an index at or past the catalogue size the source raises
no `PyvolcansError` (the claimed out-of-range error exists only as a to-do
comment in the code) — the read fails raw, modelled as `none`. -/
theorem C9_reverse_lookup (cat : List VolcanoRecord) (volcano_idx : Nat) :
    (volcano_idx < cat.length →
      get_volcano_name_from_idx cat volcano_idx =
        some ((cat.getD volcano_idx default).name)) ∧
    (cat.length ≤ volcano_idx →
      get_volcano_name_from_idx cat volcano_idx = none) := by
  constructor
  · intro h
    simp [get_volcano_name_from_idx, List.getElem?_eq_getElem h,
      List.getD_eq_getElem?_getD, List.getElem?_eq_getElem h]
  · intro h
    simp [get_volcano_name_from_idx, List.getElem?_eq_none h]

/-- Witness for C9 on a one-volcano catalogue: index 0 reads the name,
index 1 (= catalogue size) yields the raw failure. -/
theorem C9_witness :
    get_volcano_name_from_idx [⟨"A", "X", 1⟩] 0 = some "A" ∧
    get_volcano_name_from_idx [⟨"A", "X", 1⟩] 1 = none :=
  ⟨by simpa using (C9_reverse_lookup [⟨"A", "X", 1⟩] 0).1 (by decide),
   (C9_reverse_lookup [⟨"A", "X", 1⟩] 1).2 (by decide)⟩

/-! ### Percentile Evaluator (`get_analogy_percentile`) -/

/-- Ascending value sort of a row, as `np.percentile` performs internally
(a deterministic sort; the sort order of equal values is unobservable
here). -/
def sortAsc (xs : List ℚ) : List ℚ :=
  xs.insertionSort (fun a b => a ≤ b)

/-- Embedding of `np.percentile(xs, q, interpolation='midpoint')` at one
break-point `q`: with `pos = q/100 * (n - 1)` the virtual position in the
ascending sort, the midpoint rule returns the mean of the order statistics
at `⌊pos⌋` and `⌈pos⌉` (their common value when `pos` is integral).  The
caller only ever evaluates `q` in `[0, 100]`, where `pos` is nonnegative
and in bounds. -/
def percentileMidpoint (xs : List ℚ) (q : ℚ) : ℚ :=
  let s := sortAsc xs
  let pos : ℚ := q / 100 * ((s.length : ℚ) - 1)
  (s.getD ⌊pos⌋₊ 0 + s.getD ⌈pos⌉₊ 0) / 2

/-- Embedding of `np.percentile(my_analogy_values, np.linspace(0, 100, 101),
interpolation='midpoint')`: the 101 break-points at q = 0, 1, ..., 100. -/
def analogyPercentiles (xs : List ℚ) : List ℚ :=
  (List.range 101).map (fun q : Nat => percentileMidpoint xs (q : ℚ))

/-- Embedding of `np.argmin`: the index of the first minimal entry (0 for
the empty list). -/
def argminIdx : List ℚ → Nat
  | [] => 0
  | x :: xs =>
    if xs = [] then 0
    else if xs.getD (argminIdx xs) 0 < x then argminIdx xs + 1 else 0

/-- Embedding of `get_analogy_percentile`: resolve both names, take the
target's matrix row, compute the 101 midpoint percentiles of that row, and
return the index (= percentile, 0..100) of the break-point closest in
absolute difference to the a priori volcano's analogy value (ties resolved
to the first break-point, as `np.argmin` does). -/
def get_analogy_percentile (scorer : String → String → ℚ)
    (cat : List VolcanoRecord) (my_volcano apriori_volcano : String)
    (weighted_analogy_matrix : List (List ℚ)) : Except PyvolcansError Nat := do
  let my_volcano_idx ← get_volcano_idx_from_name scorer cat my_volcano
  let apriori_volcano_idx ← get_volcano_idx_from_name scorer cat apriori_volcano
  let my_analogy_values := weighted_analogy_matrix.getD my_volcano_idx []
  let analogy_percentiles := analogyPercentiles my_analogy_values
  pure (argminIdx (analogy_percentiles.map
    (fun p => |p - my_analogy_values.getD apriori_volcano_idx 0|)))

/-! ### Helper lemmas about the percentile computation -/

/-- Reduction of `get_analogy_percentile` once both names resolve. -/
lemma get_analogy_percentile_ok {scorer : String → String → ℚ}
    {cat : List VolcanoRecord} {my_volcano apriori_volcano : String}
    {M : List (List ℚ)} {mi ai : Nat}
    (hmy : get_volcano_idx_from_name scorer cat my_volcano = Except.ok mi)
    (ha : get_volcano_idx_from_name scorer cat apriori_volcano = Except.ok ai) :
    get_analogy_percentile scorer cat my_volcano apriori_volcano M =
      Except.ok (argminIdx ((analogyPercentiles (M.getD mi [])).map
        (fun p => |p - (M.getD mi []).getD ai 0|))) := by
  unfold get_analogy_percentile
  rw [hmy, ha]
  rfl

/-- Reading a mapped range through `getD`. -/
lemma getD_map_range {f : Nat → ℚ} {m k : Nat} (hk : k < m) :
    ((List.range m).map f).getD k 0 = f k := by
  rw [List.getD_eq_getElem?_getD, List.getElem?_map, List.getElem?_range hk]
  rfl

/-- An in-bounds `getD` read is a member of the list. -/
lemma getD_mem {l : List ℚ} {i : Nat} (h : i < l.length) : l.getD i 0 ∈ l := by
  rw [List.getD_eq_getElem?_getD, List.getElem?_eq_getElem h]
  exact List.getElem_mem h

/-- `argminIdx` returns an in-bounds index on nonempty lists. -/
lemma argminIdx_lt_length : ∀ {l : List ℚ}, l ≠ [] → argminIdx l < l.length
  | [], h => absurd rfl h
  | x :: xs, _ => by
    unfold argminIdx
    by_cases hxs : xs = []
    · rw [if_pos hxs]; simp
    · rw [if_neg hxs]
      have ih := argminIdx_lt_length hxs
      by_cases hlt : xs.getD (argminIdx xs) 0 < x
      · rw [if_pos hlt]; simp only [List.length_cons]; omega
      · rw [if_neg hlt]; simp only [List.length_cons]; omega

/-- On a list whose entries are all equal, `np.argmin` returns 0. -/
lemma argminIdx_all_eq {l : List ℚ} {y : ℚ} (h : ∀ x ∈ l, x = y) :
    argminIdx l = 0 := by
  cases l with
  | nil => rfl
  | cons x xs =>
    unfold argminIdx
    by_cases hxs : xs = []
    · rw [if_pos hxs]
    · rw [if_neg hxs]
      have hj : argminIdx xs < xs.length := argminIdx_lt_length hxs
      have h1 : xs.getD (argminIdx xs) 0 = y :=
        h _ (List.mem_cons_of_mem x (getD_mem hj))
      have h2 : x = y := h x (List.mem_cons_self x xs)
      have hnlt : ¬xs.getD (argminIdx xs) 0 < x := by
        rw [h1, h2]; exact lt_irrefl y
      rw [if_neg hnlt]

/-- When position `i` holds the strict unique minimum, `np.argmin`
returns `i`. -/
lemma argminIdx_unique_min : ∀ {l : List ℚ} {i : Nat}, i < l.length →
    (∀ j, j < l.length → j ≠ i → l.getD i 0 < l.getD j 0) → argminIdx l = i
  | [], i, hi, _ => absurd hi (by simp)
  | x :: xs, i, hi, h => by
    unfold argminIdx
    by_cases hxs : xs = []
    · subst hxs
      simp only [List.length_cons, List.length_nil] at hi
      interval_cases i
      simp
    · rw [if_neg hxs]
      cases i with
      | zero =>
        have hj : argminIdx xs < xs.length := argminIdx_lt_length hxs
        have hlt : (x :: xs).getD 0 0 < (x :: xs).getD (argminIdx xs + 1) 0 :=
          h (argminIdx xs + 1) (by simp only [List.length_cons]; omega) (by omega)
        rw [List.getD_cons_zero, List.getD_cons_succ] at hlt
        have hnlt : ¬xs.getD (argminIdx xs) 0 < x := not_lt.mpr (le_of_lt hlt)
        rw [if_neg hnlt]
      | succ i' =>
        have hi' : i' < xs.length := by
          simp only [List.length_cons] at hi; omega
        have h' : ∀ j, j < xs.length → j ≠ i' → xs.getD i' 0 < xs.getD j 0 := by
          intro j hj hji
          have hstep := h (j + 1) (by simp only [List.length_cons]; omega) (by omega)
          rwa [List.getD_cons_succ, List.getD_cons_succ] at hstep
        have ih : argminIdx xs = i' := argminIdx_unique_min hi' h'
        have hlt : xs.getD (argminIdx xs) 0 < x := by
          have hstep := h 0 (by simp only [List.length_cons]; omega) (by omega)
          rw [List.getD_cons_succ, List.getD_cons_zero] at hstep
          rw [ih]
          exact hstep
        rw [if_pos hlt, ih]

lemma sortAsc_perm (xs : List ℚ) : List.Perm (sortAsc xs) xs :=
  List.perm_insertionSort _ _

lemma sortAsc_length (xs : List ℚ) : (sortAsc xs).length = xs.length :=
  (sortAsc_perm xs).length_eq

lemma sortAsc_sorted (xs : List ℚ) :
    (sortAsc xs).Pairwise (fun a b : ℚ => a ≤ b) := by
  haveI : IsTotal ℚ (fun a b : ℚ => a ≤ b) := ⟨fun a b => le_total a b⟩
  haveI : IsTrans ℚ (fun a b : ℚ => a ≤ b) := ⟨fun a b c hab hbc => le_trans hab hbc⟩
  exact List.sorted_insertionSort _ _

/-- Order statistics of the ascending sort are monotone in the position. -/
lemma sortAsc_getD_le {xs : List ℚ} {i j : Nat} (hij : i ≤ j)
    (hj : j < xs.length) :
    (sortAsc xs).getD i 0 ≤ (sortAsc xs).getD j 0 := by
  rcases Nat.lt_or_ge i j with hlt | hge
  · exact pairwise_getD_of_lt 0 (sortAsc_sorted xs) hlt
      (by rw [sortAsc_length]; exact hj)
  · have hij2 : i = j := le_antisymm hij hge
    rw [hij2]

/-- In-bounds order statistics are members of the unsorted row. -/
lemma sortAsc_getD_mem {xs : List ℚ} {i : Nat} (hi : i < xs.length) :
    (sortAsc xs).getD i 0 ∈ xs := by
  have hi2 : i < (sortAsc xs).length := by rw [sortAsc_length]; exact hi
  exact (sortAsc_perm xs).mem_iff.mp (getD_mem hi2)

/-- The last order statistic of the ascending sort is the row's maximum. -/
lemma sortAsc_getLast_eq_max {xs : List ℚ} {v : ℚ} (hmem : v ∈ xs)
    (hmax : ∀ x ∈ xs, x ≤ v) (hne : xs ≠ []) :
    (sortAsc xs).getD (xs.length - 1) 0 = v := by
  have hlen0 : 0 < xs.length := List.length_pos.mpr hne
  have h1 : (sortAsc xs).getD (xs.length - 1) 0 ≤ v :=
    hmax _ (sortAsc_getD_mem (by omega))
  have hvmem : v ∈ sortAsc xs := (sortAsc_perm xs).mem_iff.mpr hmem
  obtain ⟨p, hp, hpeq⟩ := List.mem_iff_getElem.mp hvmem
  have hpD : (sortAsc xs).getD p 0 = v := by
    rw [List.getD_eq_getElem?_getD, List.getElem?_eq_getElem hp]
    simpa using hpeq
  have hplen : p < xs.length := by rw [← sortAsc_length xs]; exact hp
  have h2 : v ≤ (sortAsc xs).getD (xs.length - 1) 0 := by
    rw [← hpD]
    exact sortAsc_getD_le (by omega) (by omega)
  exact le_antisymm h1 h2

/-- When the maximum occurs exactly once in a row of length at least two,
the second-to-last order statistic is strictly below it. -/
lemma sortAsc_secondlast_lt_max {xs : List ℚ} {v : ℚ} (hlen2 : 2 ≤ xs.length)
    (hmem : v ∈ xs) (hmax : ∀ x ∈ xs, x ≤ v) (hcount : xs.count v = 1) :
    (sortAsc xs).getD (xs.length - 2) 0 < v := by
  have hne : xs ≠ [] := by intro h0; rw [h0] at hlen2; simp at hlen2
  have hle : (sortAsc xs).getD (xs.length - 2) 0 ≤ v :=
    hmax _ (sortAsc_getD_mem (by omega))
  rcases lt_or_eq_of_le hle with hlt | heq
  · exact hlt
  · exfalso
    have hlast : (sortAsc xs).getD (xs.length - 1) 0 = v :=
      sortAsc_getLast_eq_max hmem hmax hne
    have hslen : (sortAsc xs).length = xs.length := sortAsc_length xs
    have e1 : xs.length - 2 < (sortAsc xs).length := by omega
    have e3 : xs.length - 1 < (sortAsc xs).length := by omega
    have hdrop : (sortAsc xs).drop (xs.length - 2) =
        [(sortAsc xs).getD (xs.length - 2) 0, (sortAsc xs).getD (xs.length - 1) 0] := by
      rw [List.drop_eq_getElem_cons e1,
        (by omega : xs.length - 2 + 1 = xs.length - 1),
        List.drop_eq_getElem_cons e3,
        (by omega : xs.length - 1 + 1 = (sortAsc xs).length),
        List.drop_length,
        List.getD_eq_getElem?_getD, List.getElem?_eq_getElem e1,
        List.getD_eq_getElem?_getD, List.getElem?_eq_getElem e3]
      rfl
    have hsub : List.Sublist [v, v] (sortAsc xs) := by
      have hvv : (sortAsc xs).drop (xs.length - 2) = [v, v] := by
        rw [hdrop, heq, hlast]
      rw [← hvv]
      exact (List.drop_suffix _ _).sublist
    have hcount2 : 2 ≤ (sortAsc xs).count v := by
      have hc := hsub.count_le v
      simpa using hc
    have hcount1 : (sortAsc xs).count v = 1 := by
      rw [(sortAsc_perm xs).count_eq]
      exact hcount
    omega

/-- For `q` strictly below 100, the midpoint percentile of a row whose
strict unique maximum is `v` stays strictly below `v`. -/
lemma percentileMidpoint_lt_max {xs : List ℚ} {v q : ℚ} (hq0 : 0 ≤ q)
    (hq1 : q < 100) (hlen2 : 2 ≤ xs.length) (hmem : v ∈ xs)
    (hmax : ∀ x ∈ xs, x ≤ v) (hcount : xs.count v = 1) :
    percentileMidpoint xs q < v := by
  have hne : xs ≠ [] := by intro h0; rw [h0] at hlen2; simp at hlen2
  simp only [percentileMidpoint, sortAsc_length]
  have hn2 : (2 : ℚ) ≤ (xs.length : ℚ) := by exact_mod_cast hlen2
  have hcast : ((xs.length - 1 : ℕ) : ℚ) = (xs.length : ℚ) - 1 := by
    rw [Nat.cast_sub (by omega)]
    norm_num
  have hpos0 : 0 ≤ q / 100 * ((xs.length : ℚ) - 1) := by
    apply mul_nonneg (div_nonneg hq0 (by norm_num))
    linarith
  have hposlt : q / 100 * ((xs.length : ℚ) - 1) < (xs.length : ℚ) - 1 := by
    have hq100 : q / 100 < 1 := (div_lt_one (by norm_num : (0:ℚ) < 100)).mpr hq1
    calc q / 100 * ((xs.length : ℚ) - 1) < 1 * ((xs.length : ℚ) - 1) :=
          mul_lt_mul_of_pos_right hq100 (by linarith)
      _ = (xs.length : ℚ) - 1 := one_mul _
  have hfloor : ⌊q / 100 * ((xs.length : ℚ) - 1)⌋₊ ≤ xs.length - 2 := by
    have hf : ⌊q / 100 * ((xs.length : ℚ) - 1)⌋₊ < xs.length - 1 := by
      rw [Nat.floor_lt hpos0, hcast]
      exact hposlt
    omega
  have hceil : ⌈q / 100 * ((xs.length : ℚ) - 1)⌉₊ ≤ xs.length - 1 := by
    rw [Nat.ceil_le, hcast]
    exact le_of_lt hposlt
  have ha : (sortAsc xs).getD ⌊q / 100 * ((xs.length : ℚ) - 1)⌋₊ 0 ≤
      (sortAsc xs).getD (xs.length - 2) 0 :=
    sortAsc_getD_le hfloor (by omega)
  have hb : (sortAsc xs).getD ⌈q / 100 * ((xs.length : ℚ) - 1)⌉₊ 0 ≤
      (sortAsc xs).getD (xs.length - 1) 0 :=
    sortAsc_getD_le hceil (by omega)
  have h2nd : (sortAsc xs).getD (xs.length - 2) 0 < v :=
    sortAsc_secondlast_lt_max hlen2 hmem hmax hcount
  have hlastv : (sortAsc xs).getD (xs.length - 1) 0 = v :=
    sortAsc_getLast_eq_max hmem hmax hne
  linarith

/-- At `q = 100` the midpoint percentile of a row is its maximum. -/
lemma percentileMidpoint_at_100 {xs : List ℚ} {v : ℚ} (hne : xs ≠ [])
    (hmem : v ∈ xs) (hmax : ∀ x ∈ xs, x ≤ v) :
    percentileMidpoint xs 100 = v := by
  have hlen0 : 0 < xs.length := List.length_pos.mpr hne
  simp only [percentileMidpoint, sortAsc_length]
  have hpos : (100 : ℚ) / 100 * ((xs.length : ℚ) - 1) = ((xs.length - 1 : ℕ) : ℚ) := by
    rw [Nat.cast_sub (by omega)]
    norm_num
  rw [hpos, Nat.floor_natCast, Nat.ceil_natCast,
    sortAsc_getLast_eq_max hmem hmax hne]
  ring

/-- On a constant row every midpoint percentile in `[0, 100]` equals the
constant. -/
lemma percentileMidpoint_all_eq {xs : List ℚ} {c q : ℚ} (hq0 : 0 ≤ q)
    (hq1 : q ≤ 100) (hne : xs ≠ []) (hconst : ∀ x ∈ xs, x = c) :
    percentileMidpoint xs q = c := by
  have hlen0 : 0 < xs.length := List.length_pos.mpr hne
  simp only [percentileMidpoint, sortAsc_length]
  have hn1 : (1 : ℚ) ≤ (xs.length : ℚ) := by exact_mod_cast hlen0
  have hcast : ((xs.length - 1 : ℕ) : ℚ) = (xs.length : ℚ) - 1 := by
    rw [Nat.cast_sub (by omega)]
    norm_num
  have hposle : q / 100 * ((xs.length : ℚ) - 1) ≤ (xs.length : ℚ) - 1 := by
    have hq100 : q / 100 ≤ 1 := by
      rw [div_le_one (by norm_num : (0:ℚ) < 100)]
      exact hq1
    calc q / 100 * ((xs.length : ℚ) - 1) ≤ 1 * ((xs.length : ℚ) - 1) :=
          mul_le_mul_of_nonneg_right hq100 (by linarith)
      _ = (xs.length : ℚ) - 1 := one_mul _
  have hceil : ⌈q / 100 * ((xs.length : ℚ) - 1)⌉₊ ≤ xs.length - 1 := by
    rw [Nat.ceil_le, hcast]
    exact hposle
  have hfloor : ⌊q / 100 * ((xs.length : ℚ) - 1)⌋₊ ≤ xs.length - 1 :=
    le_trans (Nat.floor_le_ceil _) hceil
  have ha : (sortAsc xs).getD ⌊q / 100 * ((xs.length : ℚ) - 1)⌋₊ 0 = c :=
    hconst _ (sortAsc_getD_mem (by omega))
  have hb : (sortAsc xs).getD ⌈q / 100 * ((xs.length : ℚ) - 1)⌉₊ 0 = c :=
    hconst _ (sortAsc_getD_mem (by omega))
  rw [ha, hb]
  ring

/-! ### Claims C5, C6 -/

/-- C5 counterexample: the claim fails as stated on a concrete combined
analogy matrix.  On the all-ones matrix over a two-volcano catalogue the
target's row is constant, every percentile break-point equals the target's
own value, and `np.argmin` resolves the 101-way tie to the first
break-point: the Percentile Evaluator returns 0, not 100 — even though the
target's self-similarity is (non-strictly) the maximum of its row. -/
theorem C5_counterexample :
    get_analogy_percentile (fun _ _ => 0) [⟨"A", "X", 1⟩, ⟨"B", "Y", 2⟩]
        "A" "A" [[1, 1], [1, 1]] = Except.ok 0 ∧ (0 : Nat) ≠ 100 := by
  constructor
  · have hres0 : get_volcano_idx_from_name (fun _ _ => 0)
        [⟨"A", "X", 1⟩, ⟨"B", "Y", 2⟩] "A" = Except.ok 0 := by rfl
    rw [get_analogy_percentile_ok hres0 hres0]
    have hval : (([[1, 1], [1, 1]] : List (List ℚ)).getD 0 []).getD 0 0 = 1 := by rfl
    have hall : ∀ x ∈ (analogyPercentiles (([[1, 1], [1, 1]] :
        List (List ℚ)).getD 0 [])).map
          (fun p => |p - (([[1, 1], [1, 1]] : List (List ℚ)).getD 0 []).getD 0 0|),
        x = (0 : ℚ) := by
      intro x hx
      obtain ⟨p, hp, hpx⟩ := List.mem_map.mp hx
      obtain ⟨k, hk, hkp⟩ := List.mem_map.mp hp
      have hk100 : k < 101 := List.mem_range.mp hk
      have hpc : p = 1 := by
        rw [← hkp]
        refine percentileMidpoint_all_eq (by positivity)
          (by exact_mod_cast Nat.le_of_lt_succ hk100) (by simp) ?_
        intro z hz
        have hz2 : z = 1 ∨ z = 1 := by simpa using hz
        rcases hz2 with h2 | h2 <;> exact h2
      rw [← hpx, hpc, hval]
      simp
    exact congrArg Except.ok (argminIdx_all_eq hall)
  · decide

/-- C5 amended: when the target's similarity row is index-aligned with the
catalogue, has at least two entries, and the target's self-similarity value
is the strict unique maximum of the row (it bounds every entry and occurs
exactly once), the Percentile Evaluator applied with the target itself as
the a priori candidate returns percentile 100: the self-similarity value is
then the top percentile break-point and no lower break-point reaches it. -/
theorem C5_amended_self_percentile (scorer : String → String → ℚ)
    (cat : List VolcanoRecord) (my_volcano : String) (M : List (List ℚ))
    (mi : Nat)
    (hmy : get_volcano_idx_from_name scorer cat my_volcano = Except.ok mi)
    (hlen : (M.getD mi []).length = cat.length)
    (hlen2 : 2 ≤ (M.getD mi []).length)
    (hmax : ∀ x ∈ M.getD mi [], x ≤ (M.getD mi []).getD mi 0)
    (hcount : (M.getD mi []).count ((M.getD mi []).getD mi 0) = 1) :
    get_analogy_percentile scorer cat my_volcano my_volcano M =
      Except.ok 100 := by
  have hmi : mi < cat.length := get_volcano_idx_from_name_lt hmy
  have hmirow : mi < (M.getD mi []).length := by omega
  have hne : M.getD mi [] ≠ [] := by
    intro h0
    rw [h0] at hlen2
    simp at hlen2
  have hvmem : (M.getD mi []).getD mi 0 ∈ M.getD mi [] := getD_mem hmirow
  rw [get_analogy_percentile_ok hmy hmy]
  refine congrArg Except.ok ?_
  have hdslen : (((analogyPercentiles (M.getD mi [])).map
      (fun p => |p - (M.getD mi []).getD mi 0|))).length = 101 := by
    rw [List.length_map, analogyPercentiles, List.length_map, List.length_range]
  have hds : ∀ k, k < 101 → (((analogyPercentiles (M.getD mi [])).map
      (fun p => |p - (M.getD mi []).getD mi 0|))).getD k 0 =
      |percentileMidpoint (M.getD mi []) (k : ℚ) - (M.getD mi []).getD mi 0| := by
    intro k hk
    rw [analogyPercentiles, List.map_map]
    exact getD_map_range hk
  apply argminIdx_unique_min (by omega)
  intro j hj hj100
  rw [hdslen] at hj
  rw [hds 100 (by omega), hds j hj]
  have h100 : percentileMidpoint (M.getD mi []) ((100 : ℕ) : ℚ) =
      (M.getD mi []).getD mi 0 := by
    have hc : ((100 : ℕ) : ℚ) = (100 : ℚ) := by norm_num
    rw [hc]
    exact percentileMidpoint_at_100 hne hvmem hmax
  have hjlt : percentileMidpoint (M.getD mi []) ((j : ℕ) : ℚ) <
      (M.getD mi []).getD mi 0 := by
    apply percentileMidpoint_lt_max (by positivity) ?_ hlen2 hvmem hmax hcount
    exact_mod_cast (by omega : j < 100)
  rw [h100, sub_self, abs_zero]
  exact abs_pos.mpr (sub_ne_zero.mpr (ne_of_lt hjlt))

/-- Witness for the amended C5: target "A" in a two-volcano catalogue with
the identity-like matrix; its self-similarity 1 is the strict unique
maximum of its row [1, 0], and the percentile is 100. -/
theorem C5_witness :
    get_analogy_percentile (fun _ _ => 0) [⟨"A", "X", 1⟩, ⟨"B", "Y", 2⟩]
        "A" "A" [[1, 0], [0, 1]] = Except.ok 100 :=
  C5_amended_self_percentile (fun _ _ => 0) [⟨"A", "X", 1⟩, ⟨"B", "Y", 2⟩]
    "A" [[1, 0], [0, 1]] 0 (by rfl) (by rfl) (by decide) (by decide) (by decide)

/-- C6: when the target's full similarity row is constant (and index-aligned
with the catalogue), the Percentile Evaluator returns the same percentile
for every choice of resolvable a priori candidate: the candidate's value and
hence the whole break-point difference vector do not depend on the
candidate. -/
theorem C6_constant_row_percentile (scorer : String → String → ℚ)
    (cat : List VolcanoRecord) (my_volcano apriori_a apriori_b : String)
    (M : List (List ℚ)) (mi ai bi : Nat) (c : ℚ)
    (hmy : get_volcano_idx_from_name scorer cat my_volcano = Except.ok mi)
    (ha : get_volcano_idx_from_name scorer cat apriori_a = Except.ok ai)
    (hb : get_volcano_idx_from_name scorer cat apriori_b = Except.ok bi)
    (hlen : (M.getD mi []).length = cat.length)
    (hconst : ∀ j, j < (M.getD mi []).length → (M.getD mi []).getD j 0 = c) :
    get_analogy_percentile scorer cat my_volcano apriori_a M =
      get_analogy_percentile scorer cat my_volcano apriori_b M := by
  have hai : ai < cat.length := get_volcano_idx_from_name_lt ha
  have hbi : bi < cat.length := get_volcano_idx_from_name_lt hb
  rw [get_analogy_percentile_ok hmy ha, get_analogy_percentile_ok hmy hb,
    hconst ai (by omega), hconst bi (by omega)]

/-- Witness for C6: on the all-ones matrix over a two-volcano catalogue,
candidates "A" and "B" receive the same percentile from target "A". -/
theorem C6_witness :
    get_analogy_percentile (fun _ _ => 0) [⟨"A", "X", 1⟩, ⟨"B", "Y", 2⟩]
        "A" "A" [[1, 1], [1, 1]] =
      get_analogy_percentile (fun _ _ => 0) [⟨"A", "X", 1⟩, ⟨"B", "Y", 2⟩]
        "A" "B" [[1, 1], [1, 1]] :=
  C6_constant_row_percentile (fun _ _ => 0) [⟨"A", "X", 1⟩, ⟨"B", "Y", 2⟩]
    "A" "A" "B" [[1, 1], [1, 1]] 0 0 1 1
    (by rfl) (by rfl) (by rfl) (by rfl) (by decide)

end PyVolcans
